/-
Verification of the restaurant-review sentiment pipeline
(`Restaurant_Reviews_Chatbot.py`, plus the earlier variant in the
unnamed source file).

The Python program is shallowly embedded as follows.

* Text is a Lean `String` (a list of characters).  Python's `str.lower`
  is modelled character-wise by `Char.toLower` (basic-latin lowering,
  matching the source data's ASCII reviews); the regex class `[^\w\s]`
  is modelled by `keepChar` (word characters = alphanumeric or
  underscore, whitespace as in `Char.isWhitespace`); `re.sub(r'\s+',' ')`
  is modelled by `collapseWS`, and `str.strip` by `stripWS`.
* A value drawn from the `Review` column of the loaded table is a
  `Cell`: either a proper string (`Cell.str`) or a non-string value such
  as a NaN produced by an empty cell (`Cell.nonStr`, tagged by a number
  so distinct non-string values exist).  Python operations that raise
  `AttributeError` on a non-string (e.g. `review.lower()`) are modelled
  by the corresponding `match` branch.
* The external TextBlob polarity scorer is an opaque parameter
  `score : String → Option ℚ`; `none` models the scorer raising an
  exception, `some p` a successfully computed polarity `p` (floats are
  modelled by rationals).
* The mutable object state (`sentiment_counts`, `sentiment_scores`,
  `processed_reviews`) is the record `RestaurantState`, threaded
  explicitly; `feedback`'s loop is a left fold of `processRow`.
* `sys.exit(1)` at load time is modelled by `Except.error 1`.
-/
import Mathlib

namespace RestaurantReviews

/-! ## Characters and the normalizer (`Restaurant.clean_text`) -/

/-- Python regex `\w` restricted to ASCII: letters, digits, underscore. -/
def isWordChar (c : Char) : Bool := c.isAlphanum || c == '_'

/-- A character survives `re.sub(r'[^\w\s]', '', ·)` iff it is a word
character or whitespace. -/
def keepChar (c : Char) : Bool := isWordChar c || c.isWhitespace

/-- One pass of `re.sub(r'\s+', ' ', ·)`: every maximal run of
whitespace becomes a single space.  The boolean flag records whether the
current position is inside a whitespace run whose space has already been
emitted. -/
def collapseWSAux : Bool → List Char → List Char
  | _, [] => []
  | b, c :: cs =>
    if c.isWhitespace then
      if b then collapseWSAux true cs
      else ' ' :: collapseWSAux true cs
    else c :: collapseWSAux false cs

/-- `re.sub(r'\s+', ' ', ·)` on a character list. -/
def collapseWS (l : List Char) : List Char := collapseWSAux false l

/-- Drop leading whitespace (the left half of `str.strip`). -/
def lstripWS (l : List Char) : List Char := l.dropWhile (fun c => c.isWhitespace)

/-- Drop trailing whitespace (the right half of `str.strip`). -/
def rstripWS : List Char → List Char
  | [] => []
  | c :: cs =>
    let r := rstripWS cs
    if r.isEmpty && c.isWhitespace then [] else c :: r

/-- `str.strip`: drop leading and trailing whitespace. -/
def stripWS (l : List Char) : List Char := rstripWS (lstripWS l)

/-- `clean_text`'s successful path on a character list, in source order:
`text.lower()`, then `re.sub(r'[^\w\s]', '', ·)`, then `.strip()`, then
`re.sub(r'\s+', ' ', ·)`. -/
def cleanChars (l : List Char) : List Char :=
  collapseWS (stripWS ((l.map Char.toLower).filter keepChar))

/-- `clean_text` on a string input (the path where no exception occurs). -/
def cleanString (s : String) : String := String.mk (cleanChars s.data)

/-- A value read from the `Review` column: either a string or a
non-string value (e.g. float NaN from an empty cell), tagged so that
distinct non-string values exist. -/
inductive Cell where
  | str (s : String)
  | nonStr (tag : Nat)
deriving DecidableEq

/-- `Restaurant.clean_text`: on a string input the regex pipeline runs;
on a non-string input `text.lower()` raises `AttributeError`, the
`except` clause catches it and the original value is returned
unchanged. -/
def clean_text : Cell → Cell
  | .str s => .str (cleanString s)
  | .nonStr t => .nonStr t

/-- The inputs on which the cleaning step raises (a non-string value:
`text.lower()` has no meaning for it). -/
def cleanRaises : Cell → Prop
  | .str _ => False
  | .nonStr _ => True

instance : DecidablePred cleanRaises := fun c => by
  cases c <;> simp [cleanRaises] <;> infer_instance

/-! ## The classifier (`Restaurant.get_sentiment`) -/

/-- The three sentiment categories of the main pipeline. -/
inductive Sentiment where
  | Positive
  | Neutral
  | Negative
deriving DecidableEq

/-- The string stored in the `sentiment` field of a result row. -/
def Sentiment.label : Sentiment → String
  | .Positive => "Positive"
  | .Neutral => "Neutral"
  | .Negative => "Negative"

/-- The threshold mapping of `get_sentiment`: `polarity > 0.1` is
Positive, `polarity < -0.1` is Negative, otherwise Neutral. -/
def classifyScore (polarity : ℚ) : Sentiment :=
  if polarity > 1/10 then .Positive
  else if polarity < -(1/10) then .Negative
  else .Neutral

/-- The `get_sentiment` of the earlier variant (the unnamed source
file): `polarity <= 0` yields `"0"`, otherwise `"1"`. -/
def getSentimentV0 (polarity : ℚ) : String :=
  if polarity ≤ 0 then "0" else "1"

/-- One record of `processed_reviews`: the raw review text, its
category, and its polarity score. -/
structure ReviewRecord where
  review : String
  sentiment : Sentiment
  polarity : ℚ
deriving DecidableEq

/-- The `sentiment_counts` dictionary. -/
structure SentimentCounts where
  positive : Nat
  neutral : Nat
  negative : Nat
deriving DecidableEq

/-- Look up one category's count. -/
def SentimentCounts.get (c : SentimentCounts) : Sentiment → Nat
  | .Positive => c.positive
  | .Neutral => c.neutral
  | .Negative => c.negative

/-- `self.sentiment_counts[sentiment] += 1`. -/
def SentimentCounts.incr (c : SentimentCounts) : Sentiment → SentimentCounts
  | .Positive => { c with positive := c.positive + 1 }
  | .Neutral => { c with neutral := c.neutral + 1 }
  | .Negative => { c with negative := c.negative + 1 }

/-- `sum(self.sentiment_counts.values())`. -/
def SentimentCounts.total (c : SentimentCounts) : Nat :=
  c.positive + c.neutral + c.negative

/-- The mutable state of a `Restaurant` object that the pipeline
updates. -/
structure RestaurantState where
  sentiment_counts : SentimentCounts
  sentiment_scores : List ℚ
  processed_reviews : List ReviewRecord
deriving DecidableEq

/-- The state built by `Restaurant.__init__`. -/
def initialState : RestaurantState :=
  { sentiment_counts := ⟨0, 0, 0⟩, sentiment_scores := [], processed_reviews := [] }

/-- `Restaurant.get_sentiment`, with the TextBlob polarity computation
abstracted as `score : String → Option ℚ` (`none` models the scorer
raising).  On success the polarity is appended to `sentiment_scores`
and then thresholded; on failure the `except` clause returns
`("Neutral", 0.0)` — note the append sits before the failure point in
the `try` block, so nothing is appended on failure. -/
def get_sentiment (score : String → Option ℚ) (st : RestaurantState)
    (text : String) : (Sentiment × ℚ) × RestaurantState :=
  match score (cleanString text) with
  | some polarity =>
      ((classifyScore polarity, polarity),
        { st with sentiment_scores := st.sentiment_scores ++ [polarity] })
  | none => ((.Neutral, 0), st)

/-! ## The processing loop (`Restaurant.feedback`) -/

/-- The fixed greeting list from `Restaurant.__init__`. -/
def greetings : List String :=
  ["hello", "hi", "hey", "greetings", "sup", "what\x27s up"]

/-- `str.lower()` on a whole string, character-wise. -/
def pyLower (s : String) : String := String.mk (s.data.map Char.toLower)

/-- One iteration of the `for review in ...` loop in
`Restaurant.feedback`.  A non-string cell raises at `review.lower()`
and the per-review handler skips it; a greeting short-circuits via
`continue`; otherwise the review is scored, one tally is incremented
and a result record is appended. -/
def processRow (score : String → Option ℚ) (st : RestaurantState)
    (cell : Cell) : RestaurantState :=
  match cell with
  | .nonStr _ => st
  | .str review =>
    if pyLower review ∈ greetings then st
    else
      let r := get_sentiment score st review
      { r.2 with
        sentiment_counts := r.2.sentiment_counts.incr r.1.1,
        processed_reviews := r.2.processed_reviews ++ [⟨review, r.1.1, r.1.2⟩] }

/-- The whole review loop of `Restaurant.feedback`, from an arbitrary
starting state. -/
def runFeedback (score : String → Option ℚ) (st : RestaurantState)
    (reviews : List Cell) : RestaurantState :=
  reviews.foldl (processRow score) st

/-- `Restaurant.feedback` run from the freshly initialised object. -/
def feedback (score : String → Option ℚ) (reviews : List Cell) : RestaurantState :=
  runFeedback score initialState reviews

/-- Does a cell reach the scoring-and-tally step?  True exactly for
string cells whose lowercasing is not in the greeting list. -/
def isProcessedReview : Cell → Bool
  | .nonStr _ => false
  | .str s => if pyLower s ∈ greetings then false else true

/-- The number of input cells that reach the scoring-and-tally step. -/
def processedCount (reviews : List Cell) : Nat :=
  (reviews.filter isProcessedReview).length

/-! ## Loader, exporter, summary -/

/-- The outcome of `pd.read_csv` on the configured path: the file may be
missing (`FileNotFoundError`), unparsable (any other exception), or a
table with a list of column names and the values of the `Review`
column. -/
inductive DataFile where
  | missing
  | unparsable
  | table (cols : List String) (reviewCol : List Cell)

/-- `Restaurant.load_data`: a missing file, an unparsable file, or an
absent `Review` column all reach `sys.exit(1)` (modelled as
`Except.error 1`); otherwise the column's values are returned. -/
def load_data : DataFile → Except Nat (List Cell)
  | .missing => .error 1
  | .unparsable => .error 1
  | .table cols reviewCol =>
      if "Review" ∈ cols then .ok reviewCol else .error 1

/-- The load outcomes that are fatal according to the source. -/
def loadFails : DataFile → Prop
  | .missing => True
  | .unparsable => True
  | .table cols _ => "Review" ∉ cols

/-- `Restaurant.save_results`: the emitted table as (header row, data
rows).  The CSV is produced by `pd.DataFrame(self.processed_reviews)
.to_csv(..., index=False)`, so the columns are derived from the record
dicts: one `(review, sentiment, polarity)` row per record of
`processed_reviews`, in order, under the header `review,sentiment,
polarity` — but when `processed_reviews` is empty the DataFrame has no
columns and the written file contains no header row at all. -/
def save_results (st : RestaurantState) : List String × List (String × String × ℚ) :=
  (match st.processed_reviews with
    | [] => []
    | _ :: _ => ["review", "sentiment", "polarity"],
    st.processed_reviews.map (fun r => (r.review, r.sentiment.label, r.polarity)))

/-- The percentage printed by `Restaurant.print_summary` for one
category: `count / total * 100` when the total is positive, else `0`. -/
def summaryPercentage (counts : SentimentCounts) (s : Sentiment) : ℚ :=
  if counts.total > 0 then (counts.get s : ℚ) / (counts.total : ℚ) * 100 else 0

/-- Spec-side description of the row a single input cell contributes to
the exported table (following the spec's words: one row per non-greeting
review, carrying that review's text, category and score; skipped rows
contribute nothing).  Used to state that the run's `processed_reviews`
refines this description row by row. -/
def specRowFor (score : String → Option ℚ) : Cell → Option ReviewRecord
  | .nonStr _ => none
  | .str s =>
    if pyLower s ∈ greetings then none
    else some (match score (cleanString s) with
      | some p => ⟨s, classifyScore p, p⟩
      | none => ⟨s, .Neutral, 0⟩)

/-! ## Structural predicates on character lists

These describe the shape of `cleanChars` output: no leading or trailing
whitespace, and every whitespace occurrence is a single space followed
by a non-space. -/

/-- The list is empty or starts with a non-whitespace character. -/
def headOK : List Char → Bool
  | [] => true
  | c :: _ => !c.isWhitespace

/-- The list is empty or ends with a non-whitespace character. -/
def noTrailWS : List Char → Bool
  | [] => true
  | [c] => !c.isWhitespace
  | _ :: c :: cs => noTrailWS (c :: cs)

/-- Every whitespace character in the list is a single space that is
not followed by further whitespace. -/
def noRuns : List Char → Bool
  | [] => true
  | [c] => !c.isWhitespace || c == ' '
  | c :: d :: cs => (!c.isWhitespace || (c == ' ' && !d.isWhitespace)) && noRuns (d :: cs)

/-! ## Helper lemmas about characters -/

theorem toNat_ofNat_valid {n : Nat} (h : n < 55296) : (Char.ofNat n).toNat = n := by
  rw [Char.ofNat, dif_pos (Or.inl h)]
  rfl

theorem toLower_eq_self {c : Char} (h : ¬(65 ≤ c.toNat ∧ c.toNat ≤ 90)) :
    c.toLower = c := by
  simp only [Char.toLower]
  rw [if_neg h]

theorem toLower_not_upper (c : Char) :
    ¬(65 ≤ (Char.toLower c).toNat ∧ (Char.toLower c).toNat ≤ 90) := by
  simp only [Char.toLower]
  by_cases h : 65 ≤ c.toNat ∧ c.toNat ≤ 90
  · rw [if_pos h, toNat_ofNat_valid (by omega)]
    omega
  · rw [if_neg h]
    exact h

theorem map_fixed_of_mem {l : List Char} {f : Char → Char}
    (h : ∀ c ∈ l, f c = c) : l.map f = l := by
  induction l with
  | nil => rfl
  | cons c cs ih =>
    simp only [List.map_cons, h c (List.mem_cons_self c cs),
      ih (fun d hd => h d (List.mem_cons_of_mem c hd))]

/-! ## Helper lemmas: membership -/

theorem mem_collapseWSAux {c : Char} :
    ∀ (b : Bool) (l : List Char), c ∈ collapseWSAux b l → c = ' ' ∨ c ∈ l := by
  intro b l
  induction l generalizing b with
  | nil => simp [collapseWSAux]
  | cons d ds ih =>
    intro h
    by_cases hw : d.isWhitespace
    · cases b with
      | true =>
        simp only [collapseWSAux, hw, if_true] at h
        rcases ih true h with h1 | h1
        · exact Or.inl h1
        · exact Or.inr (List.mem_cons_of_mem d h1)
      | false =>
        simp only [collapseWSAux, hw, if_true] at h
        rcases List.mem_cons.mp h with h1 | h1
        · exact Or.inl h1
        · rcases ih true h1 with h2 | h2
          · exact Or.inl h2
          · exact Or.inr (List.mem_cons_of_mem d h2)
    · simp only [collapseWSAux, hw] at h
      rcases List.mem_cons.mp h with h1 | h1
      · exact Or.inr (h1 ▸ List.mem_cons_self d ds)
      · rcases ih false h1 with h2 | h2
        · exact Or.inl h2
        · exact Or.inr (List.mem_cons_of_mem d h2)

theorem mem_rstripWS {c : Char} :
    ∀ l : List Char, c ∈ rstripWS l → c ∈ l := by
  intro l
  induction l with
  | nil => simp [rstripWS]
  | cons d ds ih =>
    intro h
    simp only [rstripWS] at h
    split at h
    · exact absurd h (List.not_mem_nil c)
    · rcases List.mem_cons.mp h with h1 | h1
      · exact h1 ▸ List.mem_cons_self d ds
      · exact List.mem_cons_of_mem d (ih h1)

theorem mem_lstripWS {c : Char} {l : List Char} (h : c ∈ lstripWS l) : c ∈ l :=
  (List.dropWhile_sublist _).subset h

theorem mem_stripWS {c : Char} {l : List Char} (h : c ∈ stripWS l) : c ∈ l :=
  mem_lstripWS (mem_rstripWS _ h)

/-- Every character of `cleanChars l` is either a space or a character
of `l.map Char.toLower` that satisfies `keepChar`. -/
theorem mem_cleanChars {c : Char} {l : List Char} (h : c ∈ cleanChars l) :
    c = ' ' ∨ (c ∈ l.map Char.toLower ∧ keepChar c = true) := by
  rcases mem_collapseWSAux false _ h with h1 | h1
  · exact Or.inl h1
  · have h2 := mem_stripWS h1
    exact Or.inr ⟨List.mem_of_mem_filter h2, List.of_mem_filter h2⟩

/-! ## Helper lemmas: shape of the collapse and strip outputs -/

theorem headOK_collapseWSAux_true :
    ∀ l : List Char, headOK (collapseWSAux true l) = true := by
  intro l
  induction l with
  | nil => rfl
  | cons d ds ih =>
    by_cases hw : d.isWhitespace
    · simpa [collapseWSAux, hw] using ih
    · simp [collapseWSAux, hw, headOK]

theorem collapseWSAux_ne_nil :
    ∀ (b : Bool) (l : List Char), noTrailWS l = true → l ≠ [] →
      collapseWSAux b l ≠ [] := by
  intro b l
  induction l generalizing b with
  | nil => intro _ h; exact absurd rfl h
  | cons d ds ih =>
    intro h _
    cases ds with
    | nil =>
      have hw : d.isWhitespace = false := by
        simpa [noTrailWS] using h
      simp [collapseWSAux, hw]
    | cons e es =>
      have h1 : noTrailWS (e :: es) = true := by
        simpa [noTrailWS] using h
      by_cases hw : d.isWhitespace
      · cases b with
        | true =>
          simpa [collapseWSAux, hw] using ih true h1 (by simp)
        | false => simp [collapseWSAux, hw]
      · simp [collapseWSAux, hw]

theorem noTrailWS_collapseWSAux :
    ∀ (b : Bool) (l : List Char), noTrailWS l = true →
      noTrailWS (collapseWSAux b l) = true := by
  intro b l
  induction l generalizing b with
  | nil => intro _; rfl
  | cons d ds ih =>
    intro h
    cases ds with
    | nil =>
      have hw : d.isWhitespace = false := by
        simpa [noTrailWS] using h
      simp [collapseWSAux, hw, noTrailWS]
    | cons e es =>
      have h1 : noTrailWS (e :: es) = true := by
        simpa [noTrailWS] using h
      have hne : collapseWSAux true (e :: es) ≠ [] :=
        collapseWSAux_ne_nil true (e :: es) h1 (by simp)
      have hne' : collapseWSAux false (e :: es) ≠ [] :=
        collapseWSAux_ne_nil false (e :: es) h1 (by simp)
      by_cases hw : d.isWhitespace
      · cases b with
        | true => simpa [collapseWSAux, hw] using ih true h1
        | false =>
          have hstep : collapseWSAux false (d :: e :: es) =
              ' ' :: collapseWSAux true (e :: es) := by
            simp [collapseWSAux, hw]
          have := ih true h1
          rw [hstep]
          cases hout : collapseWSAux true (e :: es) with
          | nil => exact absurd hout hne
          | cons x xs =>
            rw [hout] at this
            simpa [noTrailWS] using this
      · have hstep : collapseWSAux b (d :: e :: es) =
            d :: collapseWSAux false (e :: es) := by
          simp [collapseWSAux, hw]
        have := ih false h1
        rw [hstep]
        cases hout : collapseWSAux false (e :: es) with
        | nil => exact absurd hout hne'
        | cons x xs =>
          rw [hout] at this
          simpa [noTrailWS] using this

theorem noRuns_cons_of_not_ws {d : Char} {l : List Char}
    (hw : d.isWhitespace = false) (h : noRuns l = true) :
    noRuns (d :: l) = true := by
  cases l with
  | nil => simp [noRuns, hw]
  | cons x xs => simp [noRuns, hw, h]

theorem noRuns_space_cons {l : List Char}
    (hh : headOK l = true) (h : noRuns l = true) :
    noRuns (' ' :: l) = true := by
  cases l with
  | nil => rfl
  | cons x xs =>
    have hx : x.isWhitespace = false := by
      simpa [headOK] using hh
    simp [noRuns, hx, h]

theorem noRuns_collapseWSAux :
    ∀ (b : Bool) (l : List Char), noRuns (collapseWSAux b l) = true := by
  intro b l
  induction l generalizing b with
  | nil => rfl
  | cons d ds ih =>
    by_cases hw : d.isWhitespace
    · cases b with
      | true => simpa [collapseWSAux, hw] using ih true
      | false =>
        have hhead := headOK_collapseWSAux_true ds
        simpa [collapseWSAux, hw] using noRuns_space_cons hhead (ih true)
    · simpa [collapseWSAux, hw] using noRuns_cons_of_not_ws (by simpa using hw) (ih false)

theorem collapseWSAux_true_eq_false {e : Char} {es : List Char}
    (hw : e.isWhitespace = false) :
    collapseWSAux true (e :: es) = collapseWSAux false (e :: es) := by
  simp [collapseWSAux, hw]

theorem collapseWSAux_of_noRuns :
    ∀ l : List Char, noRuns l = true → collapseWSAux false l = l := by
  intro l
  induction l with
  | nil => intro _; rfl
  | cons d ds ih =>
    intro h
    cases ds with
    | nil =>
      by_cases hw : d.isWhitespace
      · have hd : d = ' ' := by
          have := h
          simp only [noRuns, hw, Bool.not_true, Bool.false_or] at this
          exact beq_iff_eq.mp this
        subst hd
        rfl
      · simp [collapseWSAux, hw]
    | cons e es =>
      by_cases hw : d.isWhitespace
      · have hde : d = ' ' ∧ e.isWhitespace = false ∧ noRuns (e :: es) = true := by
          simp only [noRuns, hw, Bool.not_true, Bool.false_or, Bool.and_eq_true,
            beq_iff_eq, Bool.not_eq_true'] at h
          exact ⟨h.1.1, h.1.2, h.2⟩
        obtain ⟨hd, he, h1⟩ := hde
        subst hd
        have htail : collapseWSAux true (e :: es) = e :: es :=
          (collapseWSAux_true_eq_false he).trans (ih h1)
        have hstep : collapseWSAux false (' ' :: e :: es) =
            ' ' :: collapseWSAux true (e :: es) := by
          simp [collapseWSAux]
        rw [hstep, htail]
      · have h1 : noRuns (e :: es) = true := by
          simp only [noRuns, Bool.and_eq_true] at h
          exact h.2
        have hstep : collapseWSAux false (d :: e :: es) =
            d :: collapseWSAux false (e :: es) := by
          simp [collapseWSAux, hw]
        rw [hstep, ih h1]

/-! ## Helper lemmas: strip fixed points -/

theorem lstripWS_eq_self {l : List Char} (h : headOK l = true) :
    lstripWS l = l := by
  cases l with
  | nil => rfl
  | cons d ds =>
    have hw : d.isWhitespace = false := by simpa [headOK] using h
    simp [lstripWS, hw]

theorem rstripWS_eq_self : ∀ l : List Char, noTrailWS l = true → rstripWS l = l := by
  intro l
  induction l with
  | nil => intro _; rfl
  | cons d ds ih =>
    intro h
    cases ds with
    | nil =>
      have hw : d.isWhitespace = false := by simpa [noTrailWS] using h
      simp [rstripWS, hw]
    | cons e es =>
      have h1 : noTrailWS (e :: es) = true := by simpa [noTrailWS] using h
      have hstep : rstripWS (d :: e :: es) =
          if (rstripWS (e :: es)).isEmpty && d.isWhitespace then []
          else d :: rstripWS (e :: es) := rfl
      rw [hstep, ih h1]
      simp

theorem noTrailWS_rstripWS : ∀ l : List Char, noTrailWS (rstripWS l) = true := by
  intro l
  induction l with
  | nil => rfl
  | cons d ds ih =>
    simp only [rstripWS]
    split
    · rfl
    · rename_i hcond
      cases hr : rstripWS ds with
      | nil =>
        have hw : d.isWhitespace = false := by
          revert hcond
          rw [hr]
          cases hdw : d.isWhitespace <;> simp [List.isEmpty]
        simp [hr, noTrailWS, hw]
      | cons x xs =>
        rw [hr] at ih
        simpa [noTrailWS] using ih

theorem headOK_rstripWS {l : List Char} (h : headOK l = true) :
    headOK (rstripWS l) = true := by
  cases l with
  | nil => rfl
  | cons d ds =>
    simp only [rstripWS]
    split
    · rfl
    · simpa [headOK] using h

theorem headOK_lstripWS (l : List Char) : headOK (lstripWS l) = true := by
  have h := List.head?_dropWhile_not (fun c => c.isWhitespace) l
  unfold lstripWS
  cases hd : List.dropWhile (fun c => c.isWhitespace) l with
  | nil => rfl
  | cons c cs =>
    rw [hd] at h
    simp only [List.head?_cons] at h
    simpa [headOK] using h

theorem headOK_stripWS (l : List Char) : headOK (stripWS l) = true :=
  headOK_rstripWS (headOK_lstripWS l)

theorem noTrailWS_stripWS (l : List Char) : noTrailWS (stripWS l) = true :=
  noTrailWS_rstripWS _

theorem headOK_collapseWS {l : List Char} (h : headOK l = true) :
    headOK (collapseWS l) = true := by
  cases l with
  | nil => rfl
  | cons d ds =>
    have hw : d.isWhitespace = false := by simpa [headOK] using h
    simp [collapseWS, collapseWSAux, hw, headOK]

/-! ## Idempotence of the normalizer -/

/-- Every character surviving `cleanChars` is already lowercase (in the
sense that a second `lower()` fixes it) and survives the word-class
filter. -/
theorem cleanChars_fixed_chars {l : List Char} :
    ∀ c ∈ cleanChars l, Char.toLower c = c ∧ keepChar c = true := by
  intro c hc
  rcases mem_cleanChars hc with h1 | ⟨h1, h2⟩
  · subst h1
    refine ⟨toLower_eq_self (by decide), by decide⟩
  · rcases List.mem_map.mp h1 with ⟨a, _, ha⟩
    exact ⟨toLower_eq_self (ha ▸ toLower_not_upper a), h2⟩

theorem headOK_cleanChars (l : List Char) : headOK (cleanChars l) = true :=
  headOK_collapseWS (headOK_stripWS _)

theorem noTrailWS_cleanChars (l : List Char) : noTrailWS (cleanChars l) = true :=
  noTrailWS_collapseWSAux false _ (noTrailWS_stripWS _)

theorem noRuns_cleanChars (l : List Char) : noRuns (cleanChars l) = true :=
  noRuns_collapseWSAux false _

theorem cleanChars_idem (l : List Char) :
    cleanChars (cleanChars l) = cleanChars l := by
  have hmap : (cleanChars l).map Char.toLower = cleanChars l :=
    map_fixed_of_mem (fun c hc => (cleanChars_fixed_chars c hc).1)
  have hfilter : (cleanChars l).filter keepChar = cleanChars l :=
    List.filter_eq_self.mpr (fun c hc => (cleanChars_fixed_chars c hc).2)
  show collapseWS (stripWS (((cleanChars l).map Char.toLower).filter keepChar)) =
    cleanChars l
  rw [hmap, hfilter]
  show collapseWS (rstripWS (lstripWS (cleanChars l))) = cleanChars l
  rw [lstripWS_eq_self (headOK_cleanChars l),
    rstripWS_eq_self _ (noTrailWS_cleanChars l)]
  exact collapseWSAux_of_noRuns _ (noRuns_cleanChars l)

theorem cleanString_idem (s : String) :
    cleanString (cleanString s) = cleanString s := by
  show String.mk (cleanChars (String.mk (cleanChars s.data)).data) =
    String.mk (cleanChars s.data)
  rw [show (String.mk (cleanChars s.data)).data = cleanChars s.data from rfl,
    cleanChars_idem]

/-! ## Helper lemmas: tallies and the processing fold -/

theorem total_incr (c : SentimentCounts) (s : Sentiment) :
    (c.incr s).total = c.total + 1 := by
  cases s <;> simp [SentimentCounts.incr, SentimentCounts.total] <;> omega

theorem get_incr_self (c : SentimentCounts) (s : Sentiment) :
    (c.incr s).get s = c.get s + 1 := by
  cases s <;> rfl

theorem get_incr_other (c : SentimentCounts) {s t : Sentiment} (h : t ≠ s) :
    (c.incr s).get t = c.get t := by
  cases s <;> cases t <;> first
    | rfl
    | exact absurd rfl h

theorem get_incr_le (c : SentimentCounts) (s t : Sentiment) :
    c.get t ≤ (c.incr s).get t := by
  by_cases h : t = s
  · subst h
    rw [get_incr_self]
    omega
  · rw [get_incr_other c h]

/-- One loop iteration changes the tally total by one exactly when the
cell reaches the scoring step. -/
theorem processRow_total (score : String → Option ℚ) (st : RestaurantState)
    (cell : Cell) :
    (processRow score st cell).sentiment_counts.total =
      st.sentiment_counts.total + (if isProcessedReview cell then 1 else 0) := by
  cases cell with
  | nonStr t => simp [processRow, isProcessedReview]
  | str s =>
    by_cases hg : pyLower s ∈ greetings
    · simp [processRow, isProcessedReview, hg]
    · cases hs : score (cleanString s) <;>
        simp [processRow, isProcessedReview, hg, get_sentiment, hs, total_incr]

/-- One loop iteration appends exactly the spec-described row (if any)
to `processed_reviews`. -/
theorem processRow_records (score : String → Option ℚ) (st : RestaurantState)
    (cell : Cell) :
    (processRow score st cell).processed_reviews =
      st.processed_reviews ++ (specRowFor score cell).toList := by
  cases cell with
  | nonStr t => simp [processRow, specRowFor]
  | str s =>
    by_cases hg : pyLower s ∈ greetings
    · simp [processRow, specRowFor, hg]
    · cases hs : score (cleanString s) <;>
        simp [processRow, specRowFor, hg, get_sentiment, hs]

theorem processedCount_cons (c : Cell) (cs : List Cell) :
    processedCount (c :: cs) =
      (if isProcessedReview c then 1 else 0) + processedCount cs := by
  simp only [processedCount, List.filter_cons]
  split <;> simp [Nat.add_comm]

theorem runFeedback_total (score : String → Option ℚ) :
    ∀ (reviews : List Cell) (st : RestaurantState),
      (runFeedback score st reviews).sentiment_counts.total =
        st.sentiment_counts.total + processedCount reviews := by
  intro reviews
  induction reviews with
  | nil => intro st; simp [runFeedback, processedCount]
  | cons c cs ih =>
    intro st
    have hstep : runFeedback score st (c :: cs) =
        runFeedback score (processRow score st c) cs := rfl
    rw [hstep, ih, processRow_total, processedCount_cons]
    omega

theorem runFeedback_records (score : String → Option ℚ) :
    ∀ (reviews : List Cell) (st : RestaurantState),
      (runFeedback score st reviews).processed_reviews =
        st.processed_reviews ++ reviews.filterMap (specRowFor score) := by
  intro reviews
  induction reviews with
  | nil => intro st; simp [runFeedback]
  | cons c cs ih =>
    intro st
    have hstep : runFeedback score st (c :: cs) =
        runFeedback score (processRow score st c) cs := rfl
    rw [hstep, ih, processRow_records, List.filterMap_cons]
    cases specRowFor score c <;> simp

/-! ## Shared characterization of the threshold map -/

theorem get_sentiment_counts (score : String → Option ℚ) (st : RestaurantState)
    (text : String) :
    (get_sentiment score st text).2.sentiment_counts = st.sentiment_counts := by
  cases hs : score (cleanString text) <;> simp [get_sentiment, hs]

theorem classifyScore_spec (p : ℚ) :
    (classifyScore p = .Positive ↔ 1/10 < p) ∧
    (classifyScore p = .Negative ↔ p < -(1/10)) ∧
    (classifyScore p = .Neutral ↔ -(1/10) ≤ p ∧ p ≤ 1/10) := by
  unfold classifyScore
  split_ifs with h1 h2
  · exact ⟨iff_of_true rfl h1,
      iff_of_false (by simp) (by linarith),
      iff_of_false (by simp) (fun hx => absurd h1 (not_lt.mpr hx.2))⟩
  · exact ⟨iff_of_false (by simp) h1,
      iff_of_true rfl h2,
      iff_of_false (by simp) (fun hx => absurd h2 (not_lt.mpr hx.1))⟩
  · exact ⟨iff_of_false (by simp) h1,
      iff_of_false (by simp) h2,
      iff_of_true rfl ⟨not_lt.mp h2, not_lt.mp h1⟩⟩

/-! ## The claims -/

/-- C1: for a review whose scoring succeeds with polarity `p`,
`get_sentiment` assigns the category as a deterministic function of the
score via the fixed thresholds, and the thresholds characterize each of
the three categories exactly: Positive iff `p > 0.1`, Negative iff
`p < -0.1`, Neutral iff `-0.1 ≤ p ≤ 0.1`. -/
theorem get_sentiment_thresholds (score : String → Option ℚ)
    (st : RestaurantState) (text : String) (p : ℚ)
    (h : score (cleanString text) = some p) :
    (get_sentiment score st text).1.1 = classifyScore p ∧
    ((get_sentiment score st text).1.1 = .Positive ↔ 1/10 < p) ∧
    ((get_sentiment score st text).1.1 = .Negative ↔ p < -(1/10)) ∧
    ((get_sentiment score st text).1.1 = .Neutral ↔ -(1/10) ≤ p ∧ p ≤ 1/10) := by
  have hres : (get_sentiment score st text).1.1 = classifyScore p := by
    simp [get_sentiment, h]
  refine ⟨hres, ?_, ?_, ?_⟩ <;> rw [hres]
  · exact (classifyScore_spec p).1
  · exact (classifyScore_spec p).2.1
  · exact (classifyScore_spec p).2.2

theorem get_sentiment_thresholds_witness :
    (fun _ : String => some ((1:ℚ)/2)) (cleanString "great") = some ((1:ℚ)/2) ∧
    (get_sentiment (fun _ => some ((1:ℚ)/2)) initialState "great").1.1 =
      Sentiment.Positive := by
  refine ⟨rfl, ?_⟩
  have h := get_sentiment_thresholds (fun _ => some ((1:ℚ)/2)) initialState
    "great" ((1:ℚ)/2) rfl
  exact h.2.1.mpr (by norm_num)

/-- C2: the tally total after the whole run equals the number of input
cells that reach the scoring step (non-greeting string reviews); each
loop iteration never decreases any category count, and a processed
review increments exactly one category by one. -/
theorem tally_sum_invariant (score : String → Option ℚ) (reviews : List Cell) :
    (feedback score reviews).sentiment_counts.total = processedCount reviews ∧
    (∀ (st : RestaurantState) (cell : Cell) (s : Sentiment),
      st.sentiment_counts.get s ≤ (processRow score st cell).sentiment_counts.get s) ∧
    (∀ (st : RestaurantState) (cell : Cell), isProcessedReview cell = true →
      ∃ s : Sentiment,
        (processRow score st cell).sentiment_counts.get s =
          st.sentiment_counts.get s + 1 ∧
        ∀ t : Sentiment, t ≠ s →
          (processRow score st cell).sentiment_counts.get t =
            st.sentiment_counts.get t) := by
  refine ⟨?_, ?_, ?_⟩
  · have h := runFeedback_total score reviews initialState
    simpa [feedback, initialState, SentimentCounts.total] using h
  · intro st cell s
    cases cell with
    | nonStr t => exact le_refl _
    | str r =>
      by_cases hg : pyLower r ∈ greetings
      · simp [processRow, hg]
      · have hc : (processRow score st (Cell.str r)).sentiment_counts =
            st.sentiment_counts.incr (get_sentiment score st r).1.1 := by
          simp [processRow, hg, get_sentiment_counts]
        rw [hc]
        exact get_incr_le _ _ _
  · intro st cell hp
    cases cell with
    | nonStr t => simp [isProcessedReview] at hp
    | str r =>
      by_cases hg : pyLower r ∈ greetings
      · simp [isProcessedReview, hg] at hp
      · have hc : (processRow score st (Cell.str r)).sentiment_counts =
            st.sentiment_counts.incr (get_sentiment score st r).1.1 := by
          simp [processRow, hg, get_sentiment_counts]
        refine ⟨(get_sentiment score st r).1.1, ?_, ?_⟩
        · rw [hc, get_incr_self]
        · intro t ht
          rw [hc, get_incr_other _ ht]

theorem tally_sum_invariant_witness :
    (feedback (fun _ => some ((1:ℚ)/2)) [Cell.str "good", Cell.str "hello"]).sentiment_counts.total
      = processedCount [Cell.str "good", Cell.str "hello"] ∧
    isProcessedReview (Cell.str "good") = true ∧
    (∃ s : Sentiment,
      (processRow (fun _ => some ((1:ℚ)/2)) initialState (Cell.str "good")).sentiment_counts.get s =
        initialState.sentiment_counts.get s + 1 ∧
      ∀ t : Sentiment, t ≠ s →
        (processRow (fun _ => some ((1:ℚ)/2)) initialState (Cell.str "good")).sentiment_counts.get t =
          initialState.sentiment_counts.get t) :=
  ⟨(tally_sum_invariant _ _).1, by decide,
    (tally_sum_invariant (fun _ => some ((1:ℚ)/2)) []).2.2 initialState
      (Cell.str "good") (by decide)⟩

/-- C3 counterexample: with a scorer that raises (modelled by `none`),
`get_sentiment` on the fresh state returns the fallback `(Neutral, 0.0)`
but appends nothing to the score series: `sentiment_scores` stays `[]`
rather than becoming `[0]`, so the claimed append of the fallback score
does not happen. -/
theorem fallback_not_appended_cex :
    (get_sentiment (fun _ => none) initialState "awful").1 =
      (Sentiment.Neutral, (0:ℚ)) ∧
    (get_sentiment (fun _ => none) initialState "awful").2.sentiment_scores = [] ∧
    (get_sentiment (fun _ => none) initialState "awful").2.sentiment_scores ≠
      initialState.sentiment_scores ++ [(0:ℚ)] := by
  refine ⟨rfl, rfl, ?_⟩
  simp [get_sentiment, initialState]

/-- C3 amended: when the scorer raises, `get_sentiment` does not
propagate the error and returns `(Neutral, 0.0)`; however the fallback
score is NOT appended to the score series — the state is returned
unchanged, because the append sits before the failure point inside the
`try` block. -/
theorem scoring_failure_fallback (score : String → Option ℚ)
    (st : RestaurantState) (text : String)
    (h : score (cleanString text) = none) :
    get_sentiment score st text = ((.Neutral, 0), st) := by
  simp [get_sentiment, h]

theorem scoring_failure_fallback_witness :
    (fun _ : String => (none : Option ℚ)) (cleanString "awful") = none ∧
    get_sentiment (fun _ => none) initialState "awful" =
      ((Sentiment.Neutral, 0), initialState) :=
  ⟨rfl, scoring_failure_fallback _ initialState "awful" rfl⟩

/-- C4: a review whose lowercased full text is in the greeting list
short-circuits the loop iteration: the state — tallies, score series and
result records alike — is completely unchanged. -/
theorem greeting_short_circuit (score : String → Option ℚ)
    (st : RestaurantState) (s : String) (h : pyLower s ∈ greetings) :
    processRow score st (Cell.str s) = st := by
  simp [processRow, h]

theorem greeting_short_circuit_witness :
    pyLower "Hello" ∈ greetings ∧
    processRow (fun _ => some 1) initialState (Cell.str "Hello") = initialState :=
  ⟨by decide, greeting_short_circuit _ _ _ (by decide)⟩

/-- C5: on any input for which the cleaning step raises (a non-string
value, where `text.lower()` fails), `clean_text` catches the exception
and returns the original value unchanged. -/
theorem clean_text_pass_through (c : Cell) (h : cleanRaises c) :
    clean_text c = c := by
  cases c with
  | str s => exact absurd h (by simp [cleanRaises])
  | nonStr t => rfl

theorem clean_text_pass_through_witness :
    cleanRaises (Cell.nonStr 7) ∧ clean_text (Cell.nonStr 7) = Cell.nonStr 7 :=
  ⟨True.intro, clean_text_pass_through _ True.intro⟩

/-- C6: every load failure — missing file, unparsable file, or absent
`Review` column — is fatal: `load_data` ends the run with exit status 1
and delivers no rows (there is no partial-load recovery). -/
theorem load_failure_fatal (f : DataFile) (h : loadFails f) :
    load_data f = .error 1 := by
  cases f with
  | missing => rfl
  | unparsable => rfl
  | table cols reviewCol =>
    have hcols : "Review" ∉ cols := h
    simp [load_data, hcols]

theorem load_failure_fatal_witness :
    loadFails (DataFile.table ["Liked"] []) ∧
    load_data (DataFile.table ["Liked"] []) = .error 1 :=
  ⟨by simp [loadFails], load_failure_fatal _ (by simp [loadFails])⟩

/-- C7: the summary never divides by zero: with a zero total every
category's percentage is reported as 0, and with a positive total each
percentage is `count / total * 100`. -/
theorem summary_percentage_safe (counts : SentimentCounts) (s : Sentiment) :
    (counts.total = 0 → summaryPercentage counts s = 0) ∧
    (0 < counts.total →
      summaryPercentage counts s =
        (counts.get s : ℚ) / (counts.total : ℚ) * 100) := by
  constructor
  · intro h
    simp [summaryPercentage, h]
  · intro h
    simp [summaryPercentage, h]

theorem summary_percentage_safe_witness :
    (⟨0, 0, 0⟩ : SentimentCounts).total = 0 ∧
    summaryPercentage ⟨0, 0, 0⟩ Sentiment.Positive = 0 ∧
    0 < (⟨2, 1, 1⟩ : SentimentCounts).total ∧
    summaryPercentage ⟨2, 1, 1⟩ Sentiment.Positive =
      ((⟨2, 1, 1⟩ : SentimentCounts).get Sentiment.Positive : ℚ) /
        ((⟨2, 1, 1⟩ : SentimentCounts).total : ℚ) * 100 :=
  ⟨rfl, (summary_percentage_safe _ _).1 rfl, by decide,
    (summary_percentage_safe _ _).2 (by decide)⟩

/-- C8 counterexample: a run whose only input row is a greeting
processes zero non-greeting reviews, and the exported table then carries
no `review,sentiment,polarity` header row at all (the empty DataFrame
has no columns), contradicting the claim that the rows sit under that
header. -/
theorem export_rows_header_cex :
    processedCount [Cell.str "hello"] = 0 ∧
    (save_results (feedback (fun _ => some 0) [Cell.str "hello"])).1 = [] ∧
    (save_results (feedback (fun _ => some 0) [Cell.str "hello"])).1 ≠
      ["review", "sentiment", "polarity"] := by
  refine ⟨by decide, rfl, by decide⟩

/-- C8 amended: the exported table contains exactly one
`(text, category, score)` data row per non-greeting review processed, in
the order the records were produced; when at least one such review
exists the rows sit under the header row `review,sentiment,polarity`,
but a run that processes zero non-greeting reviews writes no header row
(the columns are derived from the records and an empty record list
yields none). -/
theorem export_rows (score : String → Option ℚ) (reviews : List Cell) :
    save_results (feedback score reviews) =
      (match reviews.filterMap (specRowFor score) with
        | [] => []
        | _ :: _ => ["review", "sentiment", "polarity"],
        (reviews.filterMap (specRowFor score)).map
          (fun r => (r.review, r.sentiment.label, r.polarity))) := by
  have h : (feedback score reviews).processed_reviews =
      reviews.filterMap (specRowFor score) := by
    have h0 := runFeedback_records score reviews initialState
    simpa [feedback, initialState] using h0
  simp [save_results, h]

/-- C9: the normalizer is idempotent — running `clean_text` on its own
output changes nothing (a second pass of lowercasing, non-word removal,
trimming and whitespace collapsing is the identity). -/
theorem normalize_idem (c : Cell) : clean_text (clean_text c) = clean_text c := by
  cases c with
  | str s =>
    show Cell.str (cleanString (cleanString s)) = Cell.str (cleanString s)
    rw [cleanString_idem]
  | nonStr t => rfl

/-- C10: a non-string cell (e.g. a NaN from an empty `Review` cell)
makes the loop body raise at `review.lower()`; the per-review handler
skips it, so the state is untouched, the remaining reviews are processed
exactly as without it, and the exported results are identical. -/
theorem nonstring_row_skipped (score : String → Option ℚ)
    (st : RestaurantState) (tag : Nat) (reviews : List Cell) :
    processRow score st (Cell.nonStr tag) = st ∧
    runFeedback score st (Cell.nonStr tag :: reviews) =
      runFeedback score st reviews ∧
    save_results (feedback score (Cell.nonStr tag :: reviews)) =
      save_results (feedback score reviews) :=
  ⟨rfl, rfl, rfl⟩

end RestaurantReviews
